import Mathlib

/-!
Verification of the `google` font provider (`src/providers/google.ts`) of the
`unifont` repository.

The development shallowly embeds the two algorithms of the provider — the CSS
subset partitioner (`splitCssIntoSubsets`) and the variant axis resolver (the
cartesian-product fold inside `getFontDetails`) — together with the resolution
orchestrator (`getFontDetails`, `resolveFont`).

External collaborators (the CSS parser `css-tree`, the HTTP fetcher, the cache,
`extractFontFaceData` and `prepareWeights`, none of which live in this
repository's sources) enter the embedding as explicit data or function
parameters, exactly at their interface boundary.  JavaScript builtins used by
the source (`Array.prototype.sort`, `String.prototype.localeCompare` under the
default (ICU root) collation restricted to ASCII, `Set` deduplication,
`String.prototype.trim`) are modelled explicitly below.
-/

namespace Unifont

/-! ### Models of JavaScript builtins -/

/-- Model of `String.prototype.toLowerCase` on a single character, restricted
to ASCII (the domain of font axis tags). -/
def asciiToLower (c : Char) : Char :=
  if 65 ≤ c.toNat ∧ c.toNat ≤ 90 then Char.ofNat (c.toNat + 32) else c

/-- Primary (case-insensitive) comparison pass of the ICU root collation,
restricted to ASCII: lexicographic comparison of the case-folded strings. -/
def primaryCmp : List Char → List Char → Int
  | [], [] => 0
  | [], _ :: _ => -1
  | _ :: _, [] => 1
  | a :: as, b :: bs =>
    if asciiToLower a = asciiToLower b then primaryCmp as bs
    else if asciiToLower a < asciiToLower b then -1 else 1

/-- Tertiary (case) comparison pass of the ICU root collation, restricted to
ASCII: at the first position where two primary-equal strings differ, the
lowercase letter orders first. -/
def tertiaryCmp : List Char → List Char → Int
  | a :: as, b :: bs =>
    if a = b then tertiaryCmp as bs
    else if a = asciiToLower b then -1 else 1
  | _, _ => 0

/-- Model of `String.prototype.localeCompare` under the default (ICU root)
collation, restricted to ASCII strings: case-insensitive lexicographic
comparison, with ties between primary-equal strings broken by letter case
(lowercase first at the first differing position). -/
def localeCompare (a b : String) : Int :=
  if primaryCmp a.data b.data = 0 then tertiaryCmp a.data b.data
  else primaryCmp a.data b.data

/-- Model of `[...new Set(l)]`: deduplication keeping the first occurrence of
each element, in first-occurrence order. -/
def jsSetDedup (l : List String) : List String :=
  l.foldl (fun acc x => if x ∈ acc then acc else acc ++ [x]) []

/-- Model of `s.replace(' ', '..')`: replaces only the first occurrence of a
space (JavaScript `String.prototype.replace` with a string pattern replaces a
single occurrence). -/
def replaceFirstSpaceAux : List Char → List Char
  | [] => []
  | c :: cs => if c = ' ' then '.' :: '.' :: cs else c :: replaceFirstSpaceAux cs

/-- Model of `s.replace(' ', '..')` on strings. -/
def replaceFirstSpace (s : String) : String :=
  ⟨replaceFirstSpaceAux s.data⟩

/-- Model of `String.prototype.trim`, restricted to ASCII whitespace:
leading and trailing whitespace characters are removed. -/
def jsTrim (s : String) : String :=
  ⟨((s.data.dropWhile Char.isWhitespace).reverse.dropWhile
      Char.isWhitespace).reverse⟩

/-- Model of `array.join(',')` for an array of strings. -/
def joinTokens : List String → String
  | [] => ""
  | t :: ts => ts.foldl (fun acc s => acc ++ "," ++ s) t

/-- Number of comma-separated fields of a string (the token count of a
comma-joined variant tuple). -/
def tokenCount (s : String) : Nat :=
  (s.data.filter (· = ',')).length + 1

/-! ### The axis-name comparator (`googleFlavoredSorting`) -/

/-- Embeds `a.charAt(0) === a.charAt(0).toLowerCase()` from
`googleFlavoredSorting`: the first character is unchanged by lowercasing.
(`charAt(0)` of the empty string is `""`, which equals its own lowercasing.) -/
def isFirstCharLowercase (s : String) : Bool :=
  match s.data with
  | [] => true
  | c :: _ => asciiToLower c == c

/-- Embeds `googleFlavoredSorting` (src/providers/google.ts, lines 180–190):
if the two names fall in different first-character case classes the
lowercase-led one orders first; otherwise the result of `localeCompare`. -/
def googleFlavoredSorting (a b : String) : Int :=
  if isFirstCharLowercase a ≠ isFirstCharLowercase b then
    (if isFirstCharLowercase b then (1 : Int) else 0)
      - (if isFirstCharLowercase a then (1 : Int) else 0)
  else localeCompare a b

/-- The "goes not after" relation induced by the comparator
`googleFlavoredSorting`; a stable sort with respect to this relation is the
model of `Array.prototype.sort(googleFlavoredSorting)`. -/
def gfsLe (a b : String) : Prop :=
  googleFlavoredSorting a b ≤ 0

instance : DecidableRel gfsLe := fun a b =>
  inferInstanceAs (Decidable (googleFlavoredSorting a b ≤ 0))

/-- Lexicographic "less or equal" on character lists, by code point: the
order JavaScript's comparator-less `Array.prototype.sort()` applies to (BMP)
strings. -/
def charListLe : List Char → List Char → Bool
  | [], _ => true
  | _ :: _, [] => false
  | a :: as, b :: bs => if a = b then charListLe as bs else decide (a < b)

/-- The code-unit order on strings; a stable sort with respect to it models
the comparator-less `Array.prototype.sort()` on arrays of (ASCII) strings. -/
def strLe (a b : String) : Prop :=
  charListLe a.data b.data = true

instance : DecidableRel strLe := fun a b =>
  inferInstanceAs (Decidable (charListLe a.data b.data = true))

/-! ### The subset partitioner (`splitCssIntoSubsets`) -/

/-- One comment captured by the CSS parser's `onComment` callback: its text
and the source line its location ends on.  (`splitCssIntoSubsets` pushes the
text already trimmed; here `value` is the raw text and the trimming is applied
inside the embedding of the function, mirroring `comments.push({ value:
value.trim(), endLine: loc.end.line })`.) -/
structure CssComment where
  value : String
  endLine : Nat
deriving DecidableEq

/-- One top-level `@font-face` at-rule found in the parsed tree: its starting
source line (`node.loc.start.line`) and the CSS text regenerated from the
tree (`generate(node)`).  The parser (`css-tree`) is an external collaborator,
so nodes enter the embedding as data. -/
structure FontFaceNode where
  startLine : Nat
  generated : String
deriving DecidableEq

/-- One output pair of the partitioner: optional subset label and CSS text. -/
structure SubsetFragment where
  subset : Option String
  css : String
deriving DecidableEq

/-- The trimming the parser callback applies before pushing each comment:
`comments.push({ value: value.trim(), endLine: loc.end.line })`. -/
def trimComment (c : CssComment) : CssComment :=
  ⟨jsTrim c.value, c.endLine⟩

/-- The per-node body of the partitioner loop: the last captured comment whose
end line lies strictly before the node's start line gives the label, and a
node with no such comment is skipped (`continue`). -/
def attributeNode (comments : List CssComment) (node : FontFaceNode) :
    Option SubsetFragment :=
  match (comments.filter fun c => c.endLine < node.startLine).getLast? with
  | none => none
  | some c => some ⟨some c.value, node.generated⟩

/-- Embeds `splitCssIntoSubsets` (src/providers/google.ts, lines 29–58).
`input` is the raw CSS text; `comments` and `nodes` are the outputs of the
external parse of that text (comment texts raw, in document order; font-face
nodes in document order). -/
def splitCssIntoSubsets (input : String) (comments : List CssComment)
    (nodes : List FontFaceNode) : List SubsetFragment :=
  let cs := comments.map trimComment
  if cs.length = 0 then [⟨none, input⟩]
  else nodes.filterMap (attributeNode cs)

/-! ### The variant axis resolver -/

/-- The style keywords accepted by `ResolveFontOptions.styles`; the keys of
the provider's `styleMap` object. -/
inductive StyleKeyword
  | italic
  | oblique
  | normal
deriving DecidableEq

/-- Embeds the `styleMap` object (src/providers/google.ts, lines 63–67):
each style keyword maps to a single-character `ital`-axis value code. -/
def styleMap : StyleKeyword → String
  | .italic => "1"
  | .oblique => "1"
  | .normal => "0"

/-- Embeds `[...new Set(options.styles.map(i => styleMap[i]))].sort()`
(line 79): deduplicated style codes, sorted by the default string sort. -/
def resolveStyles (styles : List StyleKeyword) : List String :=
  List.insertionSort strLe (jsSetDedup (styles.map styleMap))

/-- One entry of a caller-supplied variable-axis override list: either a
literal string or a two-element `[lo, hi]` pair. -/
inductive AxisValSpec
  | lit (s : String)
  | range (lo hi : String)
deriving DecidableEq

/-- Embeds `v => Array.isArray(v) ? `lo..hi` : v` (line 102): a pair renders
as a closed range token. -/
def renderAxisVal : AxisValSpec → String
  | .lit s => s
  | .range lo hi => lo ++ ".." ++ hi

/-- Embeds the per-axis value lookup (lines 99–102):
`({wght, ital})[axis] ?? variableAxis[family][axis]`.  `wght` resolves to the
weight tokens, `ital` to the style codes, and any other axis to the caller's
override list for that axis (already rendered to strings).  The source
non-null-asserts the override lookup because every other axis name was drawn
from the override map's keys; the `getD []` default is that assertion's
junk value for the impossible miss. -/
def axisValuesFor (weightTokens styleTokens : List String)
    (overrides : List (String × List String)) (axis : String) : List String :=
  if axis = "wght" then weightTokens
  else if axis = "ital" then styleTokens
  else (overrides.lookup axis).getD []

/-- Embeds one iteration of the cartesian-product fold (lines 104–109): an
empty running set is replaced by the axis's value list; otherwise every
running tuple is extended by every value, comma-joined, and the result is
re-sorted by the default string sort. -/
def variantStep (acc : List String) (axisValue : List String) : List String :=
  if acc.length = 0 then axisValue
  else
    List.insertionSort strLe
      (acc.flatMap fun v => axisValue.map fun o => v ++ "," ++ o)

/-- Embeds the variant axis resolver of `getFontDetails` (lines 95–111): the
active axis names `['wght', 'ital', ...Object.keys(overrides)]` are sorted
with `googleFlavoredSorting`, and the variant list is the cartesian-product
fold of the per-axis value lists in that order.  Returns
`(resolvedAxes, resolvedVariants)`. -/
def resolveAxes (weightTokens styleTokens : List String)
    (overrides : List (String × List String)) : List String × List String :=
  let axes :=
    List.insertionSort gfsLe (["wght", "ital"] ++ overrides.map Prod.fst)
  (axes,
    axes.foldl
      (fun acc a => variantStep acc (axisValuesFor weightTokens styleTokens overrides a))
      [])

/-! ### The resolution orchestrator -/

/-- The parse of the CSS text fetched for one format flavor: the raw text
together with the comments and font-face nodes the external parser finds in
it (the inputs `splitCssIntoSubsets` consumes). -/
structure FlavorCss where
  input : String
  comments : List CssComment
  nodes : List FontFaceNode
deriving DecidableEq

/-- A font-face record as returned to the caller: the payload extracted by
the external `extractFontFaceData` collaborator (type parameter `α`), plus
the `meta.priority` ordinal stamped by the orchestrator loop. -/
structure FontFaceRecord (α : Type) where
  data : α
  priority : Option Nat
deriving DecidableEq

/-- Embeds the fragment filter (line 129):
`group.subset ? options.subsets.includes(group.subset) : true`.  A `null`
label — and, by JavaScript truthiness, an empty-string label — keeps the
fragment unconditionally. -/
def keepGroup (subsets : List String) (g : SubsetFragment) : Bool :=
  match g.subset with
  | some s => if s = "" then true else subsets.contains s
  | none => true

/-- The records extracted from one flavor's CSS before priority stamping:
split into fragments, filter by requested subsets, extract from each retained
fragment (lines 129–131). -/
def flavorFaces {α : Type} (extract : String → List α) (subsets : List String)
    (fl : FlavorCss) : List α :=
  ((splitCssIntoSubsets fl.input fl.comments fl.nodes).filter
      (keepGroup subsets)).flatMap fun g => extract g.css

/-- One iteration of the per-flavor loop (lines 116–140), on the state
`(priority, resolvedFontFaceData)`: every record of the flavor is stamped
with the current priority ordinal and appended, then the priority counter is
incremented. -/
def stampFlavor {α : Type} (extract : String → List α) (subsets : List String)
    (st : Nat × List (FontFaceRecord α)) (fl : FlavorCss) :
    Nat × List (FontFaceRecord α) :=
  (st.1 + 1,
    st.2 ++ (flavorFaces extract subsets fl).map fun d => ⟨d, some st.1⟩)

/-- Embeds the per-flavor fetch loop of `getFontDetails` (lines 113–142):
`priority` starts at 0 and the flavors' records are concatenated in flavor
order.  `flavors` is the list of fetched-and-parsed CSS texts, one per entry
of `userAgents`, in that fixed order. -/
def getFontFaceData {α : Type} (extract : String → List α)
    (subsets : List String) (flavors : List FlavorCss) :
    List (FontFaceRecord α) :=
  (flavors.foldl (stampFlavor extract subsets) (0, [])).2

/-- One reconciled weight entry as produced by the external `prepareWeights`
collaborator: a weight token and whether it is a variable (ranged) weight.
(The source field is named `variable`, a reserved word in Lean.) -/
structure PreparedWeight where
  weight : String
  isVariable : Bool
deriving DecidableEq

/-- The query part of one `/css2` fetch: the `family` axis string and the
optional glyph-subset `text` hint. -/
structure CssQuery where
  family : String
  text : Option String
deriving DecidableEq

/-- Embeds the `userAgents` object (lines 69–75): the fixed, ordered list of
(format flavor, user-agent string) request identities. -/
def userAgents : List (String × String) :=
  [("woff2",
    "Mozilla/5.0 (Macintosh; Intel Mac OS X 10_15_7) AppleWebKit/537.36 (KHTML, like Gecko) Chrome/121.0.0.0 Safari/537.36"),
   ("ttf",
    "Mozilla/5.0 (Windows NT 6.1) AppleWebKit/534.54.16 (KHTML, like Gecko) Version/5.1.4 Safari/534.54.16")]

/-- Embeds `getFontDetails` (lines 77–143).  External collaborators are
parameters: `extract` is `extractFontFaceData`; `fetchCss` maps a user-agent
string and query to the fetched CSS text with its parse; `prepared` is the
result of the external `prepareWeights` call (the family metadata it consumes
is elided); `glyphs` is the pre-joined glyph hint.  The body follows the
source: dedup-and-sort the style codes, post-process variable weights
(`v.weight.replace(' ', '..')`), short-circuit to `[]` when either list is
empty, resolve axes and variants, build the one query shared by all flavors,
and run the per-flavor fetch loop. -/
def getFontDetails {α : Type} (extract : String → List α)
    (fetchCss : String → CssQuery → FlavorCss)
    (family : String) (glyphs : Option String)
    (optionStyles : List StyleKeyword) (prepared : List PreparedWeight)
    (overrides : List (String × List AxisValSpec)) (subsets : List String) :
    List (FontFaceRecord α) :=
  let styles := resolveStyles optionStyles
  let weights := prepared.map fun v =>
    if v.isVariable then ⟨replaceFirstSpace v.weight, v.isVariable⟩ else v
  if weights.length = 0 ∨ styles.length = 0 then []
  else
    let ov := overrides.map fun p => (p.1, p.2.map renderAxisVal)
    let av := resolveAxes (weights.map PreparedWeight.weight) styles ov
    let query : CssQuery :=
      ⟨family ++ ":" ++ String.intercalate "," av.1 ++ "@"
         ++ String.intercalate ";" av.2,
       glyphs⟩
    getFontFaceData extract subsets (userAgents.map fun ua => fetchCss ua.2 query)

/-- One entry of the cached family index; of the metadata fields only the
family name is consulted by the code under verification (the others feed the
external `prepareWeights` collaborator, whose output is the `prepared`
parameter). -/
structure FontIndexMeta where
  family : String
deriving DecidableEq

/-- Embeds `listFonts` (lines 146–148). -/
def listFonts (googleFonts : List FontIndexMeta) : List String :=
  googleFonts.map FontIndexMeta.family

/-- Embeds `resolveFont` (lines 149–156): if the requested family is absent
from the cached family index the result is absent (`none`, modelling the bare
`return`); otherwise the resolved records (the external cache is a
deterministic pass-through) wrapped as a present result. -/
def resolveFont {α : Type} (googleFonts : List FontIndexMeta)
    (extract : String → List α) (fetchCss : String → CssQuery → FlavorCss)
    (fontFamily : String) (glyphs : Option String)
    (optionStyles : List StyleKeyword) (prepared : List PreparedWeight)
    (overrides : List (String × List AxisValSpec)) (subsets : List String) :
    Option (List (FontFaceRecord α)) :=
  if googleFonts.any fun font => font.family == fontFamily then
    some (getFontDetails extract fetchCss fontFamily glyphs optionStyles
            prepared overrides subsets)
  else none

/-! ### Helper lemmas about the partitioner -/

theorem mem_of_getLast_some {α : Type} {l : List α} {x : α}
    (h : l.getLast? = some x) : x ∈ l := by
  obtain ⟨hne, rfl⟩ :=
    List.mem_getLast?_eq_getLast (by simpa [Option.mem_def] using h)
  exact List.getLast_mem hne

/-- In a list whose end lines are non-decreasing, the last element's end line
bounds every element's end line. -/
theorem getLast_endLine_max :
    ∀ {l : List CssComment},
      List.Pairwise (fun a b => a.endLine ≤ b.endLine) l →
      ∀ {x : CssComment}, l.getLast? = some x →
      ∀ y ∈ l, y.endLine ≤ x.endLine := by
  intro l
  induction l with
  | nil => intro _ x hx; simp at hx
  | cons a t ih =>
    intro hp x hx y hy
    rcases List.pairwise_cons.mp hp with ⟨ha, ht⟩
    cases t with
    | nil =>
      simp at hx
      rcases List.mem_singleton.mp hy with rfl
      simp [hx]
    | cons b t' =>
      rw [List.getLast?_cons_cons] at hx
      rcases List.mem_cons.mp hy with rfl | hy'
      · exact le_trans (ha x (mem_of_getLast_some hx)) (le_refl _)
      · exact ih ht hx y hy'

/-- A node with no comment ending strictly before its start line is skipped. -/
theorem attributeNode_eq_none_of {cs : List CssComment} {n : FontFaceNode}
    (h : ∀ c ∈ cs, ¬c.endLine < n.startLine) : attributeNode cs n = none := by
  unfold attributeNode
  rw [List.filter_eq_nil_iff.mpr (by simpa using h)]
  rfl

/-- A node with at least one comment ending strictly before its start line is
attributed to the last such comment. -/
theorem attributeNode_eq_some_of {cs : List CssComment} {n : FontFaceNode}
    (hne : (cs.filter fun c => c.endLine < n.startLine) ≠ []) :
    ∃ L, (cs.filter fun c => c.endLine < n.startLine).getLast? = some L ∧
      attributeNode cs n = some ⟨some L.value, n.generated⟩ := by
  obtain ⟨L, hL⟩ :=
    Option.isSome_iff_exists.mp (List.getLast?_isSome.mpr hne)
  refine ⟨L, hL, ?_⟩
  unfold attributeNode
  rw [hL]

/-- Dropping the nodes with no preceding comment from the node list does not
change the output of the partitioner loop, and the output has exactly one
fragment per attributable node. -/
theorem filterMap_attributeNode_filter (cs : List CssComment) :
    ∀ nodes : List FontFaceNode,
      nodes.filterMap (attributeNode cs)
        = (nodes.filter fun n => cs.any fun c =>
            c.endLine < n.startLine).filterMap (attributeNode cs)
      ∧ (nodes.filterMap (attributeNode cs)).length
        = (nodes.filter fun n => cs.any fun c => c.endLine < n.startLine).length
  | [] => ⟨rfl, rfl⟩
  | n :: t => by
    obtain ⟨ih1, ih2⟩ := filterMap_attributeNode_filter cs t
    by_cases hp : (cs.any fun c => decide (c.endLine < n.startLine)) = true
    · obtain ⟨c, hc, hlt⟩ := List.any_eq_true.mp hp
      have hne : (cs.filter fun c => c.endLine < n.startLine) ≠ [] := by
        intro h0
        exact absurd hlt (by simpa using List.filter_eq_nil_iff.mp h0 c hc)
      obtain ⟨L, _, hsome⟩ := attributeNode_eq_some_of hne
      rw [List.filter_cons_of_pos (by simpa using hp)]
      constructor
      · rw [List.filterMap_cons, List.filterMap_cons, hsome, ih1]
      · rw [List.filterMap_cons, hsome]
        simpa using ih2
    · have hnone : attributeNode cs n = none :=
        attributeNode_eq_none_of (by
          intro c hc hlt
          exact hp (List.any_eq_true.mpr ⟨c, hc, by simpa using hlt⟩))
      rw [List.filter_cons_of_neg (by simpa using hp)]
      constructor
      · rw [List.filterMap_cons, hnone, ih1]
      · rw [List.filterMap_cons, hnone]
        exact ih2

/-- Pointwise-total `filterMap` pairs its output with its input. -/
theorem filterMap_forall₂ {β γ : Type} {f : β → Option γ} {P : γ → β → Prop} :
    ∀ l : List β, (∀ n ∈ l, ∃ y, f n = some y ∧ P y n) →
      List.Forall₂ P (l.filterMap f) l
  | [], _ => List.Forall₂.nil
  | n :: t, h => by
    obtain ⟨y, hy, hP⟩ := h n (List.mem_cons_self n t)
    rw [List.filterMap_cons, hy]
    exact List.Forall₂.cons hP
      (filterMap_forall₂ t fun m hm => h m (List.mem_cons_of_mem _ hm))

/-! ### Claim C5 -/

/-- C5: for every CSS input that contains at least one comment, a font-face
rule with no comment ending strictly before its start line (in particular one
preceding the first comment of the document) never appears in the output:
removing all such orphan nodes from the node list leaves the partitioner's
output unchanged, and the output has exactly one fragment per non-orphan
node. -/
theorem c5_orphan_rules_dropped (input : String)
    (comments : List CssComment) (nodes : List FontFaceNode)
    (hc : comments ≠ []) :
    splitCssIntoSubsets input comments nodes
      = splitCssIntoSubsets input comments
          (nodes.filter fun n => comments.any fun c => c.endLine < n.startLine)
    ∧ (splitCssIntoSubsets input comments nodes).length
      = (nodes.filter fun n =>
          comments.any fun c => c.endLine < n.startLine).length := by
  have hlen : ¬((comments.map trimComment).length = 0) := by
    simpa [List.length_eq_zero] using hc
  have hany : ∀ n : FontFaceNode,
      ((comments.map trimComment).any fun c => decide (c.endLine < n.startLine))
        = (comments.any fun c => decide (c.endLine < n.startLine)) := by
    intro n
    rw [List.any_map]
    rfl
  obtain ⟨h1, h2⟩ :=
    filterMap_attributeNode_filter (comments.map trimComment) nodes
  unfold splitCssIntoSubsets
  rw [if_neg hlen, if_neg hlen]
  constructor
  · rw [h1]
    congr 1
    exact List.filter_congr fun n _ => hany n
  · rw [h2]
    congr 1
    exact List.filter_congr fun n _ => hany n

/-- Witness for C5 at a concrete input: one comment ending on line 2, one
node starting on line 1 (orphan, dropped) and one on line 3 (kept). -/
theorem c5_witness :
    ([⟨"latin", 2⟩] : List CssComment) ≠ []
    ∧ (splitCssIntoSubsets "x" [⟨"latin", 2⟩] [⟨1, "A"⟩, ⟨3, "B"⟩]
        = splitCssIntoSubsets "x" [⟨"latin", 2⟩]
            (([⟨1, "A"⟩, ⟨3, "B"⟩] : List FontFaceNode).filter fun n =>
              ([⟨"latin", 2⟩] : List CssComment).any fun c =>
                c.endLine < n.startLine)
      ∧ (splitCssIntoSubsets "x" [⟨"latin", 2⟩] [⟨1, "A"⟩, ⟨3, "B"⟩]).length
        = (([⟨1, "A"⟩, ⟨3, "B"⟩] : List FontFaceNode).filter fun n =>
            ([⟨"latin", 2⟩] : List CssComment).any fun c =>
              c.endLine < n.startLine).length) :=
  ⟨by decide, c5_orphan_rules_dropped "x" _ _ (by decide)⟩

/-! ### Claim C4 -/

/-- C4 fails as stated: on an input with no comments (and hence, for the
claim's precondition to hold vacuously, no font-face rules), the partitioner
returns one whole-input fragment, not zero fragments.  The precondition —
every font-face rule has a uniquely-attributable preceding comment — holds
vacuously over the empty rule list, yet the fragment count (1) differs from
the rule count (0). -/
theorem c4_counterexample :
    (∀ n ∈ ([] : List FontFaceNode), ∃ c ∈ ([] : List CssComment),
        c.endLine < n.startLine ∧
        ∀ c' ∈ ([] : List CssComment), c'.endLine < n.startLine → c' ≠ c →
          c'.endLine < c.endLine)
    ∧ splitCssIntoSubsets "p" [] [] = [⟨none, "p"⟩]
    ∧ (splitCssIntoSubsets "p" [] []).length ≠ ([] : List FontFaceNode).length := by
  refine ⟨?_, rfl, by decide⟩
  intro n hn
  simp at hn

/-- C4 (amended: the input must contain at least one comment): when every
font-face rule has exactly one uniquely-attributable preceding comment — a
comment whose end line is the greatest one strictly less than the rule's
start line, attained by no other comment — the partitioner emits exactly one
fragment per rule, in document order, each fragment carrying the rule's
regenerated CSS and the trimmed text of that nearest preceding comment.
`hsorted` states that the external parser reports comments in document order
(non-decreasing end lines), which is how `splitCssIntoSubsets` receives
them. -/
theorem c4_unique_attribution (input : String)
    (comments : List CssComment) (nodes : List FontFaceNode)
    (hc : comments ≠ [])
    (hsorted : List.Pairwise (fun a b => a.endLine ≤ b.endLine) comments)
    (hattr : ∀ n ∈ nodes, ∃ c ∈ comments, c.endLine < n.startLine ∧
        ∀ c' ∈ comments, c'.endLine < n.startLine → c' ≠ c →
          c'.endLine < c.endLine) :
    (splitCssIntoSubsets input comments nodes).length = nodes.length
    ∧ List.Forall₂ (fun frag n =>
        frag.css = n.generated ∧
        ∃ c ∈ comments, c.endLine < n.startLine ∧
          (∀ c' ∈ comments, c'.endLine < n.startLine →
            c'.endLine ≤ c.endLine) ∧
          frag.subset = some (jsTrim c.value))
      (splitCssIntoSubsets input comments nodes) nodes := by
  have hlen : ¬((comments.map trimComment).length = 0) := by
    simpa [List.length_eq_zero] using hc
  have hcs_sorted :
      List.Pairwise (fun a b => a.endLine ≤ b.endLine)
        (comments.map trimComment) :=
    List.pairwise_map.mpr hsorted
  have key : ∀ n ∈ nodes, ∃ frag,
      attributeNode (comments.map trimComment) n = some frag ∧
      (frag.css = n.generated ∧
        ∃ c ∈ comments, c.endLine < n.startLine ∧
          (∀ c' ∈ comments, c'.endLine < n.startLine →
            c'.endLine ≤ c.endLine) ∧
          frag.subset = some (jsTrim c.value)) := by
    intro n hn
    obtain ⟨c, hcmem, hlt, hstrict⟩ := hattr n hn
    have htc : trimComment c ∈ comments.map trimComment :=
      List.mem_map_of_mem _ hcmem
    have htcf : trimComment c ∈
        (comments.map trimComment).filter fun cc =>
          cc.endLine < n.startLine := by
      rw [List.mem_filter]
      exact ⟨htc, by simpa [trimComment] using hlt⟩
    obtain ⟨L, hL, hsome⟩ :=
      attributeNode_eq_some_of (List.ne_nil_of_mem htcf)
    have hLf := mem_of_getLast_some hL
    have hLmax := getLast_endLine_max (hcs_sorted.filter _) hL
    have hLcs := (List.mem_filter.mp hLf).1
    have hLlt : L.endLine < n.startLine := by
      simpa using (List.mem_filter.mp hLf).2
    obtain ⟨c₀, hc₀mem, hc₀eq⟩ := List.mem_map.mp hLcs
    have hLtc : L = trimComment c := by
      by_cases hcc : c₀ = c
      · rw [← hc₀eq, hcc]
      · exfalso
        have h1 : c₀.endLine < c.endLine :=
          hstrict c₀ hc₀mem (by simpa [← hc₀eq, trimComment] using hLlt) hcc
        have h2 : (trimComment c).endLine ≤ L.endLine := hLmax _ htcf
        rw [← hc₀eq] at h2
        simp only [trimComment] at h2
        omega
    refine ⟨⟨some L.value, n.generated⟩, hsome, rfl, c, hcmem, hlt, ?_, ?_⟩
    · intro c' hc'mem hc'lt
      by_cases hcc : c' = c
      · rw [hcc]
      · exact le_of_lt (hstrict c' hc'mem hc'lt hcc)
    · rw [hLtc]
      rfl
  have hf₂ := filterMap_forall₂ nodes key
  unfold splitCssIntoSubsets
  rw [if_neg hlen]
  exact ⟨hf₂.length_eq, hf₂⟩

/-- Witness for C4 at a concrete input: two comments (ending on lines 1 and
3, raw texts padded with whitespace) and two nodes (starting on lines 2 and
4), each node uniquely attributed to the comment directly above it. -/
theorem c4_witness :
    (([⟨" latin ", 1⟩, ⟨" cyrillic ", 3⟩] : List CssComment) ≠ []
      ∧ List.Pairwise (fun a b => a.endLine ≤ b.endLine)
          ([⟨" latin ", 1⟩, ⟨" cyrillic ", 3⟩] : List CssComment)
      ∧ ∀ n ∈ ([⟨2, "A"⟩, ⟨4, "B"⟩] : List FontFaceNode),
          ∃ c ∈ ([⟨" latin ", 1⟩, ⟨" cyrillic ", 3⟩] : List CssComment),
            c.endLine < n.startLine ∧
            ∀ c' ∈ ([⟨" latin ", 1⟩, ⟨" cyrillic ", 3⟩] : List CssComment),
              c'.endLine < n.startLine → c' ≠ c → c'.endLine < c.endLine)
    ∧ ((splitCssIntoSubsets "x" [⟨" latin ", 1⟩, ⟨" cyrillic ", 3⟩]
          [⟨2, "A"⟩, ⟨4, "B"⟩]).length
        = ([⟨2, "A"⟩, ⟨4, "B"⟩] : List FontFaceNode).length
      ∧ List.Forall₂ (fun frag n =>
          frag.css = n.generated ∧
          ∃ c ∈ ([⟨" latin ", 1⟩, ⟨" cyrillic ", 3⟩] : List CssComment),
            c.endLine < n.startLine ∧
            (∀ c' ∈ ([⟨" latin ", 1⟩, ⟨" cyrillic ", 3⟩] : List CssComment),
              c'.endLine < n.startLine → c'.endLine ≤ c.endLine) ∧
            frag.subset = some (jsTrim c.value))
        (splitCssIntoSubsets "x" [⟨" latin ", 1⟩, ⟨" cyrillic ", 3⟩]
          [⟨2, "A"⟩, ⟨4, "B"⟩])
        ([⟨2, "A"⟩, ⟨4, "B"⟩] : List FontFaceNode)) :=
  ⟨⟨by decide, by decide, by decide⟩,
    c4_unique_attribution "x" _ _ (by decide) (by decide) (by decide)⟩

/-! ### Claim C6 -/

/-- C6: for every CSS input containing zero comments, the partitioner returns
exactly one fragment whose subset label is `none` and whose CSS text is the
whole input — regardless of how many font-face rules the input contains. -/
theorem c6_no_comments_single_fragment (input : String)
    (nodes : List FontFaceNode) :
    splitCssIntoSubsets input [] nodes = [⟨none, input⟩] :=
  rfl

/-! ### Helper lemmas about the per-flavor loop -/

/-- Unrolling the per-flavor fold: starting the loop at priority `p` with
accumulated records `acc` appends, per flavor in order, that flavor's records
stamped with its ordinal. -/
theorem foldl_stampFlavor {α : Type} (extract : String → List α)
    (subsets : List String) :
    ∀ (flavors : List FlavorCss) (p : Nat) (acc : List (FontFaceRecord α)),
      (flavors.foldl (stampFlavor extract subsets) (p, acc)).2
        = acc ++ (List.enumFrom p flavors).flatMap fun q =>
            (flavorFaces extract subsets q.2).map fun d => ⟨d, some q.1⟩
  | [], p, acc => by simp [List.enumFrom]
  | fl :: t, p, acc => by
    rw [List.foldl_cons]
    have hstep : stampFlavor extract subsets (p, acc) fl
        = (p + 1, acc ++ (flavorFaces extract subsets fl).map fun d =>
            ⟨d, some p⟩) := rfl
    rw [hstep, foldl_stampFlavor extract subsets t (p + 1) _,
      List.enumFrom_cons, List.flatMap_cons, List.append_assoc]

/-- The stamped priorities of the per-flavor blocks, flattened: each flavor
contributes one constant block of its ordinal. -/
theorem priorities_of_blocks {α : Type} (extract : String → List α)
    (subsets : List String) :
    ∀ (flavors : List FlavorCss) (p : Nat),
      (((List.enumFrom p flavors).flatMap fun q =>
          (flavorFaces extract subsets q.2).map fun d =>
            (⟨d, some q.1⟩ : FontFaceRecord α)).filterMap
        FontFaceRecord.priority)
        = (List.enumFrom p flavors).flatMap fun q =>
            List.replicate (flavorFaces extract subsets q.2).length q.1
  | [], _ => by simp [List.enumFrom]
  | fl :: t, p => by
    rw [List.enumFrom_cons, List.flatMap_cons, List.flatMap_cons,
      List.filterMap_append, priorities_of_blocks extract subsets t (p + 1)]
    congr 1
    rw [List.filterMap_map]
    have : (FontFaceRecord.priority ∘ fun d : α =>
        (⟨d, some p⟩ : FontFaceRecord α)) = some ∘ fun _ : α => p := rfl
    rw [this, List.filterMap_eq_map, List.map_const']

/-- Every element of the flattened constant blocks is at least the starting
ordinal. -/
theorem mem_flatMap_replicate_ge {β : Type} (f : β → Nat) :
    ∀ (l : List β) (p : Nat) (x : Nat),
      x ∈ (List.enumFrom p l).flatMap (fun q => List.replicate (f q.2) q.1) →
      p ≤ x
  | [], _, _, hx => by simp [List.enumFrom] at hx
  | b :: t, p, x, hx => by
    rw [List.enumFrom_cons, List.flatMap_cons, List.mem_append] at hx
    rcases hx with hx | hx
    · rw [List.eq_of_mem_replicate hx]
    · exact Nat.le_of_succ_le (mem_flatMap_replicate_ge f t (p + 1) x hx)

/-- The flattened constant blocks are non-decreasing: blocks appear in
increasing ordinal order. -/
theorem sorted_flatMap_replicate {β : Type} (f : β → Nat) :
    ∀ (l : List β) (p : Nat),
      List.Sorted (· ≤ ·)
        ((List.enumFrom p l).flatMap fun q => List.replicate (f q.2) q.1)
  | [], _ => by simp [List.enumFrom]
  | b :: t, p => by
    rw [List.enumFrom_cons, List.flatMap_cons]
    rw [List.Sorted, List.pairwise_append]
    refine ⟨List.pairwise_replicate.mpr (Or.inr (le_refl p)),
      sorted_flatMap_replicate f t (p + 1), ?_⟩
    intro a ha b' hb'
    rw [List.eq_of_mem_replicate ha]
    exact Nat.le_of_succ_le (mem_flatMap_replicate_ge f t (p + 1) b' hb')

/-! ### Claim C3 -/

/-- C3: in every resolution (for every flavor list, extractor and requested
subset list), the records returned by the per-flavor loop decompose as the
per-flavor blocks in flavor order, every record extracted during flavor `i`
carrying priority `i` — the ordinal depends only on the flavor's position in
the enumeration, not on which fragments the subset filter (the universally
quantified `subsets`) removes — and the stamped priorities are monotonically
non-decreasing across the output. -/
theorem c3_priority_flavor_order {α : Type} (extract : String → List α)
    (subsets : List String) (flavors : List FlavorCss) :
    getFontFaceData extract subsets flavors
      = flavors.enum.flatMap (fun q =>
          (flavorFaces extract subsets q.2).map fun d => ⟨d, some q.1⟩)
    ∧ List.Sorted (· ≤ ·)
        ((getFontFaceData extract subsets flavors).filterMap
          FontFaceRecord.priority)
    ∧ ∀ r ∈ getFontFaceData extract subsets flavors,
        ∃ i, i < flavors.length ∧ r.priority = some i := by
  have hdec : getFontFaceData extract subsets flavors
      = (List.enumFrom 0 flavors).flatMap fun q =>
          (flavorFaces extract subsets q.2).map fun d => ⟨d, some q.1⟩ := by
    rw [getFontFaceData, foldl_stampFlavor extract subsets flavors 0 []]
    rfl
  refine ⟨hdec, ?_, ?_⟩
  · rw [hdec, priorities_of_blocks extract subsets flavors 0]
    exact sorted_flatMap_replicate
      (fun fl => (flavorFaces extract subsets fl).length) flavors 0
  · intro r hr
    rw [hdec] at hr
    obtain ⟨q, hq, hrq⟩ := List.mem_flatMap.mp hr
    obtain ⟨i, fl⟩ := q
    obtain ⟨d, _, rfl⟩ := List.mem_map.mp hrq
    obtain ⟨_, hi, _⟩ := List.mem_enumFrom hq
    exact ⟨i, by simpa using hi, rfl⟩

/-! ### Claim C8 -/

/-- C8: for every known family, when the reconciled weight list (the external
`prepareWeights` output) or the deduplicated style list is empty, the
resolution yields zero variants and returns an empty — not absent — record
sequence.  The conclusion holds for every `fetchCss` and `extract`, so the
short-circuit happens before any fetch request is consulted. -/
theorem c8_empty_selection_short_circuits {α : Type}
    (extract : String → List α) (fetchCss : String → CssQuery → FlavorCss)
    (googleFonts : List FontIndexMeta) (family : String)
    (glyphs : Option String) (optionStyles : List StyleKeyword)
    (prepared : List PreparedWeight)
    (overrides : List (String × List AxisValSpec)) (subsets : List String)
    (hknown : (googleFonts.any fun font => font.family == family) = true)
    (hempty : prepared = [] ∨ jsSetDedup (optionStyles.map styleMap) = []) :
    getFontDetails extract fetchCss family glyphs optionStyles prepared
        overrides subsets = []
    ∧ resolveFont googleFonts extract fetchCss family glyphs optionStyles
        prepared overrides subsets = some [] := by
  have h1 : getFontDetails extract fetchCss family glyphs optionStyles
      prepared overrides subsets = [] := by
    rcases hempty with h | h
    · simp [getFontDetails, h]
    · simp [getFontDetails, resolveStyles, h]
  exact ⟨h1, by simp [resolveFont, hknown, h1]⟩

/-- Witness for C8: the family is known, the requested style list is empty,
one fixed weight is prepared; the resolution returns an empty present
sequence no matter the fetch and extraction collaborators. -/
theorem c8_witness :
    ((([⟨"Roboto"⟩] : List FontIndexMeta).any fun font =>
        font.family == "Roboto") = true
      ∧ (([⟨"400", false⟩] : List PreparedWeight) = []
          ∨ jsSetDedup (([] : List StyleKeyword).map styleMap) = []))
    ∧ (getFontDetails (fun _ => ([] : List Nat)) (fun _ _ => ⟨"", [], []⟩)
        "Roboto" none [] [⟨"400", false⟩] [] [] = []
      ∧ resolveFont [⟨"Roboto"⟩] (fun _ => ([] : List Nat))
          (fun _ _ => ⟨"", [], []⟩) "Roboto" none [] [⟨"400", false⟩] [] []
          = some []) :=
  ⟨⟨by decide, Or.inr (by decide)⟩,
    c8_empty_selection_short_circuits _ _ _ _ _ _ _ _ _ (by decide)
      (Or.inr (by decide))⟩

/-! ### Claim C9 -/

/-- C9: for every family name absent from the cached family index,
`resolveFont` returns an absent result (`none`, the model of the bare
`return`) — not an exception and not an empty record sequence — whatever the
options and collaborators. -/
theorem c9_unknown_family_absent {α : Type}
    (googleFonts : List FontIndexMeta) (extract : String → List α)
    (fetchCss : String → CssQuery → FlavorCss) (fontFamily : String)
    (glyphs : Option String) (optionStyles : List StyleKeyword)
    (prepared : List PreparedWeight)
    (overrides : List (String × List AxisValSpec)) (subsets : List String)
    (hunknown : ∀ font ∈ googleFonts, font.family ≠ fontFamily) :
    resolveFont googleFonts extract fetchCss fontFamily glyphs optionStyles
      prepared overrides subsets = none := by
  have hany : (googleFonts.any fun font => font.family == fontFamily)
      = false := by
    rw [List.any_eq_false]
    intro font hfont
    simpa using hunknown font hfont
  simp [resolveFont, hany]

/-- Witness for C9: the index knows only "Roboto"; requesting "Arial" yields
the absent result. -/
theorem c9_witness :
    (∀ font ∈ ([⟨"Roboto"⟩] : List FontIndexMeta), font.family ≠ "Arial")
    ∧ resolveFont [⟨"Roboto"⟩] (fun _ => ([] : List Nat))
        (fun _ _ => ⟨"", [], []⟩) "Arial" none [] [⟨"400", false⟩] [] []
        = none :=
  ⟨by decide,
    c9_unknown_family_absent _ _ _ _ _ _ _ _ _ (by decide)⟩

/-! ### Order properties of the default string sort -/

theorem charListLe_total : ∀ as bs : List Char,
    charListLe as bs = true ∨ charListLe bs as = true
  | [], _ => Or.inl rfl
  | _ :: _, [] => Or.inr rfl
  | a :: as, b :: bs => by
    simp only [charListLe]
    by_cases h : a = b
    · rw [if_pos h, if_pos h.symm]
      exact charListLe_total as bs
    · rw [if_neg h, if_neg (Ne.symm h)]
      rcases lt_trichotomy a b with hlt | heq | hgt
      · exact Or.inl (by simpa using hlt)
      · exact absurd heq h
      · exact Or.inr (by simpa using hgt)

theorem charListLe_trans : ∀ as bs cs : List Char,
    charListLe as bs = true → charListLe bs cs = true →
    charListLe as cs = true
  | [], _, _, _, _ => rfl
  | _ :: _, [], _, h1, _ => by simp [charListLe] at h1
  | _ :: _, _ :: _, [], _, h2 => by simp [charListLe] at h2
  | a :: as, b :: bs, c :: cs, h1, h2 => by
    simp only [charListLe] at h1 h2 ⊢
    by_cases hab : a = b
    · subst hab
      rw [if_pos rfl] at h1
      by_cases hac : a = c
      · rw [if_pos hac] at h2 ⊢
        exact charListLe_trans as bs cs h1 h2
      · rw [if_neg hac] at h2 ⊢
        exact h2
    · rw [if_neg hab] at h1
      by_cases hbc : b = c
      · subst hbc
        rw [if_neg hab]
        exact h1
      · rw [if_neg hbc] at h2
        have h1' : a < b := by simpa using h1
        have h2' : b < c := by simpa using h2
        have hac : a ≠ c := by
          intro he
          subst he
          exact absurd (lt_trans h1' h2') (lt_irrefl a)
        rw [if_neg hac]
        simpa using lt_trans h1' h2'

theorem charListLe_antisymm : ∀ as bs : List Char,
    charListLe as bs = true → charListLe bs as = true → as = bs
  | [], [], _, _ => rfl
  | [], _ :: _, _, h2 => by simp [charListLe] at h2
  | _ :: _, [], h1, _ => by simp [charListLe] at h1
  | a :: as, b :: bs, h1, h2 => by
    simp only [charListLe] at h1 h2
    by_cases hab : a = b
    · subst hab
      rw [if_pos rfl] at h1 h2
      rw [charListLe_antisymm as bs h1 h2]
    · rw [if_neg hab] at h1
      rw [if_neg (Ne.symm hab)] at h2
      have h1' : a < b := by simpa using h1
      have h2' : b < a := by simpa using h2
      exact absurd (lt_trans h1' h2') (lt_irrefl a)

instance : IsTotal String strLe :=
  ⟨fun a b => charListLe_total a.data b.data⟩

instance : IsTrans String strLe :=
  ⟨fun a b c => charListLe_trans a.data b.data c.data⟩

instance : IsAntisymm String strLe :=
  ⟨fun a b h1 h2 => by
    cases a
    cases b
    exact congrArg String.mk (charListLe_antisymm _ _ h1 h2)⟩

/-! ### Properties of `Set` deduplication -/

theorem foldl_dedup_mem (x : String) :
    ∀ (l acc : List String),
      (x ∈ l.foldl (fun acc y => if y ∈ acc then acc else acc ++ [y]) acc)
        ↔ x ∈ acc ∨ x ∈ l
  | [], acc => by simp
  | y :: t, acc => by
    rw [List.foldl_cons]
    by_cases h : y ∈ acc
    · rw [if_pos h, foldl_dedup_mem x t acc]
      constructor
      · rintro (hx | hx)
        · exact Or.inl hx
        · exact Or.inr (List.mem_cons_of_mem _ hx)
      · rintro (hx | hx)
        · exact Or.inl hx
        · rcases List.mem_cons.mp hx with rfl | hx'
          · exact Or.inl h
          · exact Or.inr hx'
    · rw [if_neg h, foldl_dedup_mem x t (acc ++ [y])]
      simp only [List.mem_append, List.mem_singleton, List.mem_cons]
      tauto

theorem foldl_dedup_nodup :
    ∀ (l acc : List String), acc.Nodup →
      (l.foldl (fun acc y => if y ∈ acc then acc else acc ++ [y]) acc).Nodup
  | [], _, h => h
  | y :: t, acc, h => by
    rw [List.foldl_cons]
    by_cases hy : y ∈ acc
    · rw [if_pos hy]
      exact foldl_dedup_nodup t acc h
    · rw [if_neg hy]
      exact foldl_dedup_nodup t _ (by simp [List.nodup_append, h, hy])

theorem jsSetDedup_mem {x : String} {l : List String} :
    x ∈ jsSetDedup l ↔ x ∈ l := by
  rw [jsSetDedup, foldl_dedup_mem]
  simp

theorem jsSetDedup_nodup (l : List String) : (jsSetDedup l).Nodup :=
  foldl_dedup_nodup l [] List.nodup_nil

/-! ### Claim C10 -/

/-- C10: `"italic"` and `"oblique"` both map to the axis-value code `"1"`
(and `"normal"` to `"0"`), so on any requested style list containing both,
removing `"oblique"` leaves the deduplicated, sorted style-code list — and
hence the resolved axes and variants — unchanged. -/
theorem c10_italic_oblique_same_code (l : List StyleKeyword)
    (hi : StyleKeyword.italic ∈ l) (_ho : StyleKeyword.oblique ∈ l) :
    styleMap .italic = "1" ∧ styleMap .oblique = "1" ∧ styleMap .normal = "0"
    ∧ resolveStyles l
        = resolveStyles (l.filter fun s => s != StyleKeyword.oblique)
    ∧ ∀ (wt : List String) (ov : List (String × List String)),
        resolveAxes wt (resolveStyles l) ov
          = resolveAxes wt
              (resolveStyles (l.filter fun s => s != StyleKeyword.oblique)) ov := by
  have hmem : ∀ x : String, x ∈ l.map styleMap
      ↔ x ∈ (l.filter fun s => s != StyleKeyword.oblique).map styleMap := by
    intro x
    constructor
    · intro hx
      obtain ⟨s, hs, rfl⟩ := List.mem_map.mp hx
      by_cases hso : s = StyleKeyword.oblique
      · subst hso
        exact List.mem_map.mpr
          ⟨.italic, List.mem_filter.mpr ⟨hi, by decide⟩, rfl⟩
      · exact List.mem_map.mpr
          ⟨s, List.mem_filter.mpr ⟨hs, by simpa [bne_iff_ne] using hso⟩, rfl⟩
    · intro hx
      obtain ⟨s, hs, rfl⟩ := List.mem_map.mp hx
      exact List.mem_map.mpr ⟨s, (List.mem_filter.mp hs).1, rfl⟩
  have hperm : List.Perm (jsSetDedup (l.map styleMap))
      (jsSetDedup ((l.filter fun s => s != StyleKeyword.oblique).map styleMap)) := by
    apply List.Subperm.antisymm
    · apply (jsSetDedup_nodup _).subperm
      intro x hx
      exact jsSetDedup_mem.mpr ((hmem x).mp (jsSetDedup_mem.mp hx))
    · apply (jsSetDedup_nodup _).subperm
      intro x hx
      exact jsSetDedup_mem.mpr ((hmem x).mpr (jsSetDedup_mem.mp hx))
  have heq : resolveStyles l
      = resolveStyles (l.filter fun s => s != StyleKeyword.oblique) := by
    rw [resolveStyles, resolveStyles]
    exact List.eq_of_perm_of_sorted
      (((List.perm_insertionSort strLe _).trans hperm).trans
        (List.perm_insertionSort strLe _).symm)
      (List.sorted_insertionSort strLe _)
      (List.sorted_insertionSort strLe _)
  exact ⟨rfl, rfl, rfl, heq, fun wt ov => by rw [heq]⟩

/-- Witness for C10 at the style list `[normal, oblique, italic]`. -/
theorem c10_witness :
    (StyleKeyword.italic ∈ ([.normal, .oblique, .italic] : List StyleKeyword)
      ∧ StyleKeyword.oblique ∈ ([.normal, .oblique, .italic] : List StyleKeyword))
    ∧ (styleMap .italic = "1" ∧ styleMap .oblique = "1" ∧ styleMap .normal = "0"
      ∧ resolveStyles [.normal, .oblique, .italic]
          = resolveStyles (([.normal, .oblique, .italic] : List StyleKeyword).filter
              fun s => s != StyleKeyword.oblique)
      ∧ ∀ (wt : List String) (ov : List (String × List String)),
          resolveAxes wt (resolveStyles [.normal, .oblique, .italic]) ov
            = resolveAxes wt
                (resolveStyles (([.normal, .oblique, .italic] : List StyleKeyword).filter
                  fun s => s != StyleKeyword.oblique)) ov) :=
  ⟨⟨by decide, by decide⟩,
    c10_italic_oblique_same_code _ (by decide) (by decide)⟩

/-! ### Helper lemmas about the cartesian-product fold -/

theorem joinTokens_append (ts : List String) (o : String) (h : ts ≠ []) :
    joinTokens (ts ++ [o]) = joinTokens ts ++ "," ++ o := by
  cases ts with
  | nil => exact absurd rfl h
  | cons t ts' =>
    show (ts' ++ [o]).foldl (fun acc s => acc ++ "," ++ s) t
      = (joinTokens (t :: ts')) ++ "," ++ o
    rw [List.foldl_append]
    rfl

theorem length_cross (acc values : List String) :
    (acc.flatMap fun v => values.map fun o => v ++ "," ++ o).length
      = acc.length * values.length := by
  rw [List.length_flatMap]
  have : (List.length ∘ fun v => values.map fun o => v ++ "," ++ o)
      = fun _ : String => values.length := by
    funext v
    simp
  rw [this, List.map_const', List.sum_replicate, smul_eq_mul]

theorem lookup_of_mem_keys :
    ∀ (ov : List (String × List String)) (a : String),
      a ∈ ov.map Prod.fst →
      ∃ b, ov.lookup a = some b ∧ (a, b) ∈ ov
  | [], _, h => by simp at h
  | (k, v) :: t, a, h => by
    by_cases hk : a = k
    · subst hk
      exact ⟨v, by simp [List.lookup], List.mem_cons_self _ _⟩
    · have hmem : a ∈ t.map Prod.fst := by
        rw [List.map_cons] at h
        rcases List.mem_cons.mp h with h1 | h1
        · exact absurd h1 hk
        · exact h1
      obtain ⟨b, hl, hm⟩ := lookup_of_mem_keys t a hmem
      refine ⟨b, ?_, List.mem_cons_of_mem _ hm⟩
      rw [List.lookup]
      have : (a == k) = false := by simpa using hk
      rw [this]
      exact hl

/-- The invariant of the cartesian-product fold: starting from a non-empty
running set whose tuples realise the prefix `pfx`, folding the non-empty
value lists `rest` yields exactly one tuple per combination, and every
resulting string is the comma-join of one token from each list of
`pfx ++ rest`, in that order. -/
theorem foldl_variantStep_inv :
    ∀ (rest pfx : List (List String)) (acc : List String),
      (∀ l ∈ rest, l ≠ []) →
      acc ≠ [] →
      acc.length = (pfx.map List.length).prod →
      (∀ s ∈ acc, ∃ ts, ts ≠ [] ∧
          List.Forall₂ (fun t vl => t ∈ vl) ts pfx ∧ s = joinTokens ts) →
      rest.foldl variantStep acc ≠ []
      ∧ (rest.foldl variantStep acc).length
          = ((pfx ++ rest).map List.length).prod
      ∧ ∀ s ∈ rest.foldl variantStep acc, ∃ ts, ts ≠ [] ∧
          List.Forall₂ (fun t vl => t ∈ vl) ts (pfx ++ rest)
          ∧ s = joinTokens ts
  | [], pfx, acc, _, hne, hlen, htoks => by
    rw [List.foldl_nil, List.append_nil]
    exact ⟨hne, hlen, htoks⟩
  | v :: rest, pfx, acc, hrest, hne, hlen, htoks => by
    have hv : v ≠ [] := hrest v (List.mem_cons_self _ _)
    have hstep : variantStep acc v
        = List.insertionSort strLe
            (acc.flatMap fun x => v.map fun o => x ++ "," ++ o) := by
      rw [variantStep, if_neg]
      simpa [List.length_eq_zero] using hne
    have hperm := List.perm_insertionSort strLe
      (acc.flatMap fun x => v.map fun o => x ++ "," ++ o)
    have hlen' : (variantStep acc v).length = acc.length * v.length := by
      rw [hstep, hperm.length_eq, length_cross]
    have hnext_ne : variantStep acc v ≠ [] := by
      rw [← List.length_pos, hlen']
      exact Nat.mul_pos (List.length_pos.mpr hne) (List.length_pos.mpr hv)
    have hlen'' : (variantStep acc v).length
        = ((pfx ++ [v]).map List.length).prod := by
      rw [hlen', hlen, List.map_append, List.prod_append]
      simp
    have hnext_toks : ∀ s ∈ variantStep acc v, ∃ ts, ts ≠ [] ∧
        List.Forall₂ (fun t vl => t ∈ vl) ts (pfx ++ [v])
        ∧ s = joinTokens ts := by
      intro s hs
      rw [hstep] at hs
      obtain ⟨x, hx, hsx⟩ := List.mem_flatMap.mp (hperm.mem_iff.mp hs)
      obtain ⟨o, ho, rfl⟩ := List.mem_map.mp hsx
      obtain ⟨ts, htsne, hf₂, rfl⟩ := htoks x hx
      exact ⟨ts ++ [o], by simp,
        List.rel_append hf₂ (List.Forall₂.cons ho List.Forall₂.nil),
        (joinTokens_append ts o htsne).symm⟩
    have hrec := foldl_variantStep_inv rest (pfx ++ [v]) (variantStep acc v)
      (fun l hl => hrest l (List.mem_cons_of_mem _ hl))
      hnext_ne hlen'' hnext_toks
    rw [List.foldl_cons]
    have hassoc : (pfx ++ [v]) ++ rest = pfx ++ v :: rest := by
      rw [List.append_assoc]
      rfl
    rw [hassoc] at hrec
    exact hrec

/-- The cartesian-product fold over a non-empty list of non-empty value
lists: the result has exactly the product of the list sizes many tuples, and
each tuple is a comma-join of one token per value list, in order. -/
theorem variantsFold_spec (vls : List (List String))
    (hvls : ∀ l ∈ vls, l ≠ []) (hne : vls ≠ []) :
    (vls.foldl variantStep []).length = (vls.map List.length).prod
    ∧ ∀ s ∈ vls.foldl variantStep [], ∃ ts, ts ≠ []
        ∧ List.Forall₂ (fun t vl => t ∈ vl) ts vls ∧ s = joinTokens ts := by
  cases vls with
  | nil => exact absurd rfl hne
  | cons v rest =>
    rw [List.foldl_cons]
    have hv0 : variantStep [] v = v := by simp [variantStep]
    rw [hv0]
    have hv : v ≠ [] := hvls v (List.mem_cons_self _ _)
    have htoks : ∀ s ∈ v, ∃ ts, ts ≠ [] ∧
        List.Forall₂ (fun t vl => t ∈ vl) ts [v] ∧ s = joinTokens ts := by
      intro s hs
      exact ⟨[s], by simp, List.Forall₂.cons hs List.Forall₂.nil, rfl⟩
    have hrec := foldl_variantStep_inv rest [v] v
      (fun l hl => hvls l (List.mem_cons_of_mem _ hl)) hv (by simp) htoks
    have hassoc : ([v] : List (List String)) ++ rest = v :: rest := rfl
    rw [hassoc] at hrec
    exact ⟨hrec.2.1, hrec.2.2⟩

/-- The per-axis value lists the resolver folds over are all non-empty when
the weight tokens, style codes and every override list are non-empty. -/
theorem axisValues_ne_nil (wt st : List String)
    (ov : List (String × List String))
    (hwt : wt ≠ []) (hst : st ≠ []) (hov : ∀ p ∈ ov, p.2 ≠ []) :
    ∀ l ∈ (List.insertionSort gfsLe
        (["wght", "ital"] ++ ov.map Prod.fst)).map (axisValuesFor wt st ov),
      l ≠ [] := by
  intro l hl
  obtain ⟨a, ha, rfl⟩ := List.mem_map.mp hl
  have ha' : a ∈ ["wght", "ital"] ++ ov.map Prod.fst :=
    (List.perm_insertionSort gfsLe _).subset ha
  unfold axisValuesFor
  by_cases h1 : a = "wght"
  · rw [if_pos h1]
    exact hwt
  · rw [if_neg h1]
    by_cases h2 : a = "ital"
    · rw [if_pos h2]
      exact hst
    · rw [if_neg h2]
      have hmem : a ∈ ov.map Prod.fst := by
        rcases List.mem_append.mp ha' with hin | hin
        · exfalso
          rcases (by simpa using hin : a = "wght" ∨ a = "ital") with h | h
          · exact h1 h
          · exact h2 h
        · exact hin
      obtain ⟨b, hlk, hmem'⟩ := lookup_of_mem_keys ov a hmem
      rw [hlk]
      exact hov (a, b) hmem'

/-- The shared characterisation of the resolver's output under non-empty
value lists: exactly the product many variants, each the comma-join of one
token per resolved axis, in resolved-axis order. -/
theorem resolveAxes_spec (wt st : List String)
    (ov : List (String × List String))
    (hwt : wt ≠ []) (hst : st ≠ []) (hov : ∀ p ∈ ov, p.2 ≠ []) :
    ((resolveAxes wt st ov).2).length
      = (((resolveAxes wt st ov).1).map fun a =>
          (axisValuesFor wt st ov a).length).prod
    ∧ ∀ s ∈ (resolveAxes wt st ov).2, ∃ ts, ts ≠ []
        ∧ List.Forall₂ (fun t a => t ∈ axisValuesFor wt st ov a) ts
            (resolveAxes wt st ov).1
        ∧ s = joinTokens ts := by
  have h2 : (resolveAxes wt st ov).2
      = ((List.insertionSort gfsLe
          (["wght", "ital"] ++ ov.map Prod.fst)).map
            (axisValuesFor wt st ov)).foldl variantStep [] := by
    rw [resolveAxes, List.foldl_map]
  have haxne : (List.insertionSort gfsLe
      (["wght", "ital"] ++ ov.map Prod.fst)).map (axisValuesFor wt st ov)
      ≠ [] := by
    rw [← List.length_pos, List.length_map,
      (List.perm_insertionSort gfsLe _).length_eq]
    simp
  obtain ⟨hL, hT⟩ := variantsFold_spec _
    (axisValues_ne_nil wt st ov hwt hst hov) haxne
  constructor
  · rw [h2, hL]
    have : (resolveAxes wt st ov).1
        = List.insertionSort gfsLe (["wght", "ital"] ++ ov.map Prod.fst) :=
      rfl
    rw [this, List.map_map]
    rfl
  · intro s hs
    rw [h2] at hs
    obtain ⟨ts, htsne, hf₂, rfl⟩ := hT s hs
    exact ⟨ts, htsne, List.forall₂_map_right_iff.mp hf₂, rfl⟩

/-! ### Claim C1 -/

/-- C1: for every resolution whose weight tokens, style codes and
caller-supplied axis override lists are all non-empty, the cartesian-product
fold produces exactly the product of the per-axis value-list sizes many
variant tuples, and every tuple is the comma-join of exactly one value token
per active axis in the fixed resolved-axis order (so every tuple has token
count equal to the axis count, aligned identically across tuples). -/
theorem c1_cartesian_product_count (wt st : List String)
    (ov : List (String × List String))
    (hwt : wt ≠ []) (hst : st ≠ []) (hov : ∀ p ∈ ov, p.2 ≠ []) :
    ((resolveAxes wt st ov).2).length
      = (((resolveAxes wt st ov).1).map fun a =>
          (axisValuesFor wt st ov a).length).prod
    ∧ ∀ s ∈ (resolveAxes wt st ov).2, ∃ ts, ts ≠ []
        ∧ List.Forall₂ (fun t a => t ∈ axisValuesFor wt st ov a) ts
            (resolveAxes wt st ov).1
        ∧ s = joinTokens ts :=
  resolveAxes_spec wt st ov hwt hst hov

/-- Witness for C1: weights `["400"]`, styles `["0"]`, one override axis
`opsz` with one range token; the resolver yields one variant for three axes. -/
theorem c1_witness :
    ((["400"] : List String) ≠ [] ∧ (["0"] : List String) ≠ []
      ∧ ∀ p ∈ ([("opsz", ["10..20"])] : List (String × List String)),
          p.2 ≠ [])
    ∧ (((resolveAxes ["400"] ["0"] [("opsz", ["10..20"])]).2).length
        = (((resolveAxes ["400"] ["0"] [("opsz", ["10..20"])]).1).map fun a =>
            (axisValuesFor ["400"] ["0"] [("opsz", ["10..20"])] a).length).prod
      ∧ ∀ s ∈ (resolveAxes ["400"] ["0"] [("opsz", ["10..20"])]).2,
          ∃ ts, ts ≠ []
          ∧ List.Forall₂
              (fun t a => t ∈ axisValuesFor ["400"] ["0"]
                [("opsz", ["10..20"])] a)
              ts (resolveAxes ["400"] ["0"] [("opsz", ["10..20"])]).1
          ∧ s = joinTokens ts) :=
  ⟨⟨by decide, by decide, by decide⟩,
    c1_cartesian_product_count _ _ _ (by decide) (by decide) (by decide)⟩

/-! ### Claim C7 -/

/-- C7 fails as stated: with a caller-supplied override list that is empty,
the fold's `resolvedVariants.length === 0` test re-seeds the running set at
the next axis, producing tuples with fewer tokens than there are active
axes.  Concretely, for weights `["400"]`, styles `["0"]` and an empty
override list for axis `aaaa`, the resolver reports three active axes but
produces the single two-token tuple `"0,400"`. -/
theorem c7_counterexample :
    ((resolveAxes ["400"] ["0"] [("aaaa", [])]).1).length = 3
    ∧ (resolveAxes ["400"] ["0"] [("aaaa", [])]).2 = ["0,400"]
    ∧ tokenCount "0,400" = 2 := by
  decide

/-- C7 (amended: every caller-supplied variable-axis override list must be
non-empty — and the weight and style token lists non-empty, as the
resolution's short-circuit guarantees whenever any variant is produced at
all): every produced variant tuple is the comma-join of exactly one token
per active axis, in the fixed resolved-axis order, identical across all
tuples of the resolution. -/
theorem c7_token_alignment (wt st : List String)
    (ov : List (String × List String))
    (hwt : wt ≠ []) (hst : st ≠ []) (hov : ∀ p ∈ ov, p.2 ≠ []) :
    ∀ s ∈ (resolveAxes wt st ov).2, ∃ ts, ts ≠ []
      ∧ List.Forall₂ (fun t a => t ∈ axisValuesFor wt st ov a) ts
          (resolveAxes wt st ov).1
      ∧ s = joinTokens ts :=
  (resolveAxes_spec wt st ov hwt hst hov).2

/-- Witness for C7's amended statement: weights `["400"]`, styles `["1"]`,
one uppercase-led override axis `GRAD` with one literal token. -/
theorem c7_witness :
    ((["400"] : List String) ≠ [] ∧ (["1"] : List String) ≠ []
      ∧ ∀ p ∈ ([("GRAD", ["-50"])] : List (String × List String)), p.2 ≠ [])
    ∧ ∀ s ∈ (resolveAxes ["400"] ["1"] [("GRAD", ["-50"])]).2,
        ∃ ts, ts ≠ []
        ∧ List.Forall₂
            (fun t a => t ∈ axisValuesFor ["400"] ["1"] [("GRAD", ["-50"])] a)
            ts (resolveAxes ["400"] ["1"] [("GRAD", ["-50"])]).1
        ∧ s = joinTokens ts :=
  ⟨⟨by decide, by decide, by decide⟩,
    c7_token_alignment _ _ _ (by decide) (by decide) (by decide)⟩

/-! ### Character facts for the comparator -/

/-- The first character is an ASCII lowercase letter. -/
def startsWithLowerLetter (s : String) : Bool :=
  match s.data with
  | [] => false
  | c :: _ => 97 ≤ c.toNat && c.toNat ≤ 122

/-- The first character is an ASCII uppercase letter. -/
def startsWithUpperLetter (s : String) : Bool :=
  match s.data with
  | [] => false
  | c :: _ => 65 ≤ c.toNat && c.toNat ≤ 90

/-- The case-folded character list of a string. -/
def caseFold (s : String) : List Char :=
  s.data.map asciiToLower

theorem char_toNat_inj {c d : Char} (h : c.toNat = d.toNat) : c = d :=
  Char.ext (UInt32.ext h)

theorem char_lt_of_toNat_lt {c d : Char} (h : c.toNat < d.toNat) : c < d := by
  rw [Char.lt_def]
  exact h

theorem toNat_charOfNat {n : Nat} (h : n < 55296) : (Char.ofNat n).toNat = n := by
  unfold Char.ofNat
  rw [dif_pos (Or.inl h)]
  rfl

theorem asciiToLower_eq_self {c : Char} (h : ¬(65 ≤ c.toNat ∧ c.toNat ≤ 90)) :
    asciiToLower c = c := by
  unfold asciiToLower
  rw [if_neg h]

theorem toNat_asciiToLower_upper {c : Char}
    (h : 65 ≤ c.toNat ∧ c.toNat ≤ 90) :
    (asciiToLower c).toNat = c.toNat + 32 := by
  unfold asciiToLower
  rw [if_pos h]
  exact toNat_charOfNat (by omega)

theorem asciiToLower_ne_self_of_upper {c : Char}
    (h : 65 ≤ c.toNat ∧ c.toNat ≤ 90) : asciiToLower c ≠ c := by
  intro he
  have := congrArg Char.toNat he
  rw [toNat_asciiToLower_upper h] at this
  omega

/-- Two distinct characters with equal case folds are the two cases of one
letter; the uppercase one has the smaller code point. -/
theorem fold_eq_ne_cases {a b : Char} (hf : asciiToLower a = asciiToLower b)
    (hne : a ≠ b) :
    (a = asciiToLower b ∧ b < a) ∨ (b = asciiToLower a ∧ a < b) := by
  by_cases ha : 65 ≤ a.toNat ∧ a.toNat ≤ 90 <;>
    by_cases hb : 65 ≤ b.toNat ∧ b.toNat ≤ 90
  · exfalso
    have h1 := toNat_asciiToLower_upper ha
    have h2 := toNat_asciiToLower_upper hb
    have h3 : a.toNat = b.toNat := by
      have h4 := congrArg Char.toNat hf
      rw [h1, h2] at h4
      omega
    exact hne (char_toNat_inj h3)
  · right
    rw [asciiToLower_eq_self hb] at hf
    refine ⟨hf.symm, ?_⟩
    apply char_lt_of_toNat_lt
    have h32 := toNat_asciiToLower_upper ha
    rw [hf] at h32
    omega
  · left
    rw [asciiToLower_eq_self ha] at hf
    refine ⟨hf, ?_⟩
    apply char_lt_of_toNat_lt
    have h32 := toNat_asciiToLower_upper hb
    rw [← hf] at h32
    omega
  · exfalso
    rw [asciiToLower_eq_self ha, asciiToLower_eq_self hb] at hf
    exact hne hf

/-- Inversion for lexicographic comparison of two cons cells. -/
theorem lex_cons_inv {α : Type} {r : α → α → Prop} {x y : α}
    {l1 l2 : List α} (h : List.Lex r (x :: l1) (y :: l2)) :
    r x y ∨ (x = y ∧ List.Lex r l1 l2) := by
  cases h with
  | cons h' => exact Or.inr ⟨rfl, h'⟩
  | rel h' => exact Or.inl h'

/-! ### Sign characterisation of the collation passes -/

theorem primaryCmp_eq_zero_iff : ∀ as bs : List Char,
    primaryCmp as bs = 0 ↔ as.map asciiToLower = bs.map asciiToLower
  | [], [] => by simp [primaryCmp]
  | [], _ :: _ => by simp [primaryCmp]
  | _ :: _, [] => by simp [primaryCmp]
  | a :: as, b :: bs => by
    simp only [primaryCmp, List.map_cons]
    by_cases h : asciiToLower a = asciiToLower b
    · rw [if_pos h, primaryCmp_eq_zero_iff as bs]
      constructor
      · intro h2
        rw [h, h2]
      · intro h2
        injection h2
    · rw [if_neg h]
      have hne : (if asciiToLower a < asciiToLower b then (-1 : Int) else 1)
          ≠ 0 := by
        by_cases h2 : asciiToLower a < asciiToLower b <;> simp [h2]
      constructor
      · intro h0
        exact absurd h0 hne
      · intro h2
        injection h2 with h3 _
        exact absurd h3 h

theorem primaryCmp_neg_iff : ∀ as bs : List Char,
    primaryCmp as bs < 0
      ↔ List.Lex (· < ·) (as.map asciiToLower) (bs.map asciiToLower)
  | [], [] => by
    simp only [primaryCmp, List.map_nil]
    constructor
    · intro h
      norm_num at h
    · intro h
      exact absurd h (List.Lex.not_nil_right _ _)
  | [], _ :: _ => by
    simp only [primaryCmp, List.map_cons, List.map_nil]
    exact ⟨fun _ => List.Lex.nil, fun _ => by norm_num⟩
  | _ :: _, [] => by
    simp only [primaryCmp, List.map_cons, List.map_nil]
    constructor
    · intro h
      norm_num at h
    · intro h
      exact absurd h (List.Lex.not_nil_right _ _)
  | a :: as, b :: bs => by
    simp only [primaryCmp, List.map_cons]
    by_cases h : asciiToLower a = asciiToLower b
    · rw [if_pos h, primaryCmp_neg_iff as bs, h]
      exact (List.Lex.cons_iff).symm
    · rw [if_neg h]
      by_cases hlt : asciiToLower a < asciiToLower b
      · rw [if_pos hlt]
        constructor
        · intro _
          exact List.Lex.rel hlt
        · intro _
          norm_num
      · rw [if_neg hlt]
        constructor
        · intro h0
          norm_num at h0
        · intro hlex
          exfalso
          rcases lex_cons_inv hlex with h' | ⟨he, _⟩
          · exact hlt h'
          · exact h he

theorem tertiaryCmp_neg_iff : ∀ as bs : List Char,
    as.map asciiToLower = bs.map asciiToLower →
    (tertiaryCmp as bs < 0 ↔ List.Lex (· < ·) bs as)
  | [], [], _ => by
    constructor
    · intro h
      norm_num [tertiaryCmp] at h
    · intro h
      exact absurd h (List.Lex.not_nil_right _ _)
  | [], _ :: _, h => by simp at h
  | _ :: _, [], h => by simp at h
  | a :: as, b :: bs, h => by
    rw [List.map_cons, List.map_cons] at h
    injection h with hh ht
    simp only [tertiaryCmp]
    by_cases heq : a = b
    · subst heq
      rw [if_pos rfl, tertiaryCmp_neg_iff as bs ht]
      exact (List.Lex.cons_iff).symm
    · rcases fold_eq_ne_cases hh heq with ⟨hlow, hba⟩ | ⟨hlow, hab⟩
      · rw [if_neg heq, if_pos hlow]
        constructor
        · intro _
          exact List.Lex.rel hba
        · intro _
          norm_num
      · have haup : 65 ≤ a.toNat ∧ a.toNat ≤ 90 := by
          by_contra hno
          rw [asciiToLower_eq_self hno] at hlow
          exact heq hlow.symm
        have hbt : b.toNat = a.toNat + 32 := by
          rw [hlow]
          exact toNat_asciiToLower_upper haup
        have hbl : asciiToLower b = b := asciiToLower_eq_self (by omega)
        have hcond : ¬a = asciiToLower b := by
          rw [hbl]
          exact heq
        rw [if_neg heq, if_neg hcond]
        constructor
        · intro h0
          norm_num at h0
        · intro hlex
          exfalso
          rcases lex_cons_inv hlex with h' | ⟨he, _⟩
          · exact absurd hab (lt_asymm h')
          · exact heq he.symm

/-! ### The comparator's branches -/

theorem gfs_eq_localeCompare {a b : String}
    (h : isFirstCharLowercase a = isFirstCharLowercase b) :
    googleFlavoredSorting a b = localeCompare a b := by
  rw [googleFlavoredSorting, if_neg]
  simp [h]

theorem isFirstCharLowercase_of_lower {a : String}
    (h : startsWithLowerLetter a = true) : isFirstCharLowercase a = true := by
  unfold startsWithLowerLetter at h
  unfold isFirstCharLowercase
  cases hd : a.data with
  | nil =>
    rfl
  | cons c l =>
    rw [hd] at h
    have hb : 97 ≤ c.toNat ∧ c.toNat ≤ 122 := by
      rcases Bool.and_eq_true _ _ |>.mp h with ⟨h1, h2⟩
      exact ⟨by simpa using h1, by simpa using h2⟩
    have : asciiToLower c = c := asciiToLower_eq_self (by omega)
    simp [this]

theorem isFirstCharLowercase_of_upper {b : String}
    (h : startsWithUpperLetter b = true) : isFirstCharLowercase b = false := by
  unfold startsWithUpperLetter at h
  unfold isFirstCharLowercase
  cases hd : b.data with
  | nil =>
    rw [hd] at h
    exact absurd h (by simp)
  | cons c l =>
    rw [hd] at h
    have hb : 65 ≤ c.toNat ∧ c.toNat ≤ 90 := by
      rcases Bool.and_eq_true _ _ |>.mp h with ⟨h1, h2⟩
      exact ⟨by simpa using h1, by simpa using h2⟩
    simpa using asciiToLower_ne_self_of_upper hb

/-! ### Claim C2 -/

/-- C2 fails as stated: `"aB"` and `"ab"` are in the same (lowercase-led)
case class and `"aB"` precedes `"ab"` lexicographically, yet the comparator
orders `"ab"` first (`localeCompare` under the default collation compares
case-insensitively and breaks the tie lowercase-first). -/
theorem c2_counterexample :
    isFirstCharLowercase "aB" = isFirstCharLowercase "ab"
    ∧ List.Lex (· < ·) (String.data "aB") (String.data "ab")
    ∧ googleFlavoredSorting "aB" "ab" = 1 := by
  refine ⟨by decide, ?_, by decide⟩
  exact List.Lex.cons (List.Lex.rel (by decide))

/-- C2 (amended): the comparator orders any name starting with a lowercase
letter before any name starting with an uppercase letter regardless of
alphabetic value; within the same case class it compares by the default
locale collation — case-insensitively lexicographically when the case-folded
names differ, and, for names equal up to case, lowercase-first at the first
differing position (equivalently, in reverse code-point order) — rather than
by plain lexicographic comparison. -/
theorem c2_comparator_order (a b : String) :
    (startsWithLowerLetter a = true → startsWithUpperLetter b = true →
      googleFlavoredSorting a b = -1 ∧ googleFlavoredSorting b a = 1)
    ∧ (isFirstCharLowercase a = isFirstCharLowercase b →
        caseFold a ≠ caseFold b →
        (googleFlavoredSorting a b < 0
          ↔ List.Lex (· < ·) (caseFold a) (caseFold b)))
    ∧ (isFirstCharLowercase a = isFirstCharLowercase b →
        caseFold a = caseFold b →
        (googleFlavoredSorting a b < 0
          ↔ List.Lex (· < ·) b.data a.data)) := by
  refine ⟨?_, ?_, ?_⟩
  · intro hla hub
    have hA := isFirstCharLowercase_of_lower hla
    have hB := isFirstCharLowercase_of_upper hub
    constructor
    · rw [googleFlavoredSorting, if_pos (by rw [hA, hB]; decide), hA, hB]
      decide
    · rw [googleFlavoredSorting, if_pos (by rw [hA, hB]; decide), hA, hB]
      decide
  · intro h hf
    rw [gfs_eq_localeCompare h, localeCompare,
      if_neg fun h0 => hf ((primaryCmp_eq_zero_iff _ _).mp h0)]
    exact primaryCmp_neg_iff a.data b.data
  · intro h hf
    rw [gfs_eq_localeCompare h, localeCompare,
      if_pos ((primaryCmp_eq_zero_iff _ _).mpr hf)]
    exact tertiaryCmp_neg_iff a.data b.data hf

/-- Witness for C2 at concrete inputs: `"zzz"` before `"AAA"` across case
classes; `"ital"` before `"wght"` within a class with differing folds;
`"ab"` before `"aB"` within a class with equal folds (reverse code-point
order). -/
theorem c2_witness :
    (googleFlavoredSorting "zzz" "AAA" = -1
      ∧ googleFlavoredSorting "AAA" "zzz" = 1)
    ∧ (googleFlavoredSorting "ital" "wght" < 0
        ↔ List.Lex (· < ·) (caseFold "ital") (caseFold "wght"))
    ∧ (googleFlavoredSorting "ab" "aB" < 0
        ↔ List.Lex (· < ·) (String.data "aB") (String.data "ab")) :=
  ⟨(c2_comparator_order "zzz" "AAA").1 (by decide) (by decide),
    (c2_comparator_order "ital" "wght").2.1 (by decide) (by decide),
    (c2_comparator_order "ab" "aB").2.2 (by decide) (by decide)⟩

end Unifont
